import Mathlib

/-!
Shallow embedding of the Sketchpad application (`src/main.ts`) and proofs of
the specification's claims about it.

The application is a single-threaded, event-driven canvas drawing program.
Its mutable state consists of the committed display list `drawing`, the
`redoStack`, the in-progress command `currentCommand`, the tool preview
`toolPreview`, the `isDrawing` flag, and the tool parameters
(`currentTool`, `currentLineWidth`, `currentSticker`, `currentSetting`).
Each DOM event listener is modelled as one case of a `step` function on an
explicit `State` record; rendering (`redraw`, `exportDrawing`) is modelled
as producing the ordered list of primitive canvas operations that the code
issues against the 2D context.

JavaScript object identity is modelled by tagging every created drawable
with a fresh numeric `id` drawn from a counter in the state: `new penLine`
and `new Sticker` in the source each allocate a distinct object, so each
model construction consumes a fresh id.
-/

namespace Sketchpad

/-- `interface Point { x, y }` — canvas-local coordinates. -/
structure Point where
  x : Int
  y : Int
deriving DecidableEq, Repr

/-- The committable drawable variants: `class penLine` (a freehand stroke:
ordered path, fixed line width and color captured at creation) and
`class Sticker` (a glyph: mutable position, fixed emoji and rotation).
The `id` field models JavaScript object identity (each `new` allocates a
fresh object). -/
inductive Drawable where
  | penLine (id : Nat) (path : List Point) (lineWidth : Nat) (color : String)
  | Sticker (id : Nat) (position : Point) (emoji : String) (rotation : Nat)
deriving DecidableEq, Repr

/-- The object-identity tag of a drawable. -/
def Drawable.id : Drawable → Nat
  | .penLine i _ _ _ => i
  | .Sticker i _ _ _ => i

/-- `drag(point)`: `penLine.drag` pushes the point onto the path;
`Sticker.drag` replaces the position. -/
def Drawable.drag (c : Drawable) (p : Point) : Drawable :=
  match c with
  | .penLine i path w col => .penLine i (path ++ [p]) w col
  | .Sticker i _ e r => .Sticker i p e r

/-- `penLine.isValid()`: `this.path.length > 1`. -/
def Drawable.isValid (c : Drawable) : Bool :=
  match c with
  | .penLine _ path _ _ => path.length > 1
  | .Sticker _ _ _ _ => false

/-- The preview variants: `class penPreview` (a filled circle of diameter
`lineWidth` in the translucent current color) and `class StickerPreview`
(the glyph at half opacity). -/
inductive Preview where
  | penPreview (position : Point) (lineWidth : Nat) (color : String)
  | StickerPreview (position : Point) (emoji : String) (rotation : Nat)
deriving DecidableEq, Repr

/-- `type Tool = "pen" | "stamp"`. -/
inductive Tool where
  | pen
  | stamp
deriving DecidableEq, Repr

/-- `getCurrentColor()`: the hsl string built from `currentSetting`. -/
def getCurrentColor (currentSetting : Nat) : String :=
  "hsl(" ++ toString currentSetting ++ ", 100%, 50%)"

/-- `getPreviewColor()`: the translucent hsla string built from
`currentSetting`. -/
def getPreviewColor (currentSetting : Nat) : String :=
  "hsla(" ++ toString currentSetting ++ ", 100%, 50%, 0.5)"

/-- The mutable application state: the module-level `let`/`const` bindings
of `main.ts` that the event listeners read and write, plus the fresh-id
counter that models object allocation. -/
structure State where
  drawing : List Drawable
  redoStack : List Drawable
  currentCommand : Option Drawable
  toolPreview : Option Preview
  isDrawing : Bool
  currentTool : Tool
  currentLineWidth : Nat
  currentSticker : String
  currentSetting : Nat
  nextId : Nat
deriving DecidableEq, Repr

/-- The initial state: `drawing = []`, `redoStack = []`,
`currentCommand = null`, `toolPreview = null`, `isDrawing = false`,
`currentTool = "pen"`, `currentLineWidth = 2`, `currentSticker = "🎨"`,
`currentSetting = 0`. -/
def initState : State :=
  { drawing := []
    redoStack := []
    currentCommand := none
    toolPreview := none
    isDrawing := false
    currentTool := .pen
    currentLineWidth := 2
    currentSticker := "🎨"
    currentSetting := 0
    nextId := 0 }

/-- The events the listeners in `main.ts` handle.  `selectToolEv` carries
the `options` object of `selectTool` (`lineWidth?`, `stamp?`). -/
inductive Event where
  | mousedown (p : Point)
  | mousemove (p : Point)
  | mouseup
  | mouseleave
  | clearClick
  | undoClick
  | redoClick
  | sliderInput (v : Nat)
  | selectToolEv (tool : Tool) (lineWidth : Option Nat) (stamp : Option String)
deriving DecidableEq, Repr

/-- `stopDrawing`: `if (!isDrawing || !currentCommand) return;` then clears
the flag, pushes the command onto `drawing` when it is a valid `penLine`
or any `Sticker`, and clears the in-progress slot. -/
def stopDrawing (s : State) : State :=
  match s.currentCommand with
  | none => s
  | some c =>
    if s.isDrawing then
      { s with
        isDrawing := false
        drawing :=
          match c with
          | .penLine _ _ _ _ => if c.isValid then s.drawing ++ [c] else s.drawing
          | .Sticker _ _ _ _ => s.drawing ++ [c]
        currentCommand := none }
    else s

/-- One event-listener execution, translated case by case from the
listeners registered in `main.ts`.  JavaScript truthiness of
`options.lineWidth` / `options.stamp` in `selectTool` is modelled by the
`≠ 0` / `≠ ""` tests (0 and the empty string are falsy). -/
def step (s : State) : Event → State
  | .mousedown p =>
    let base := { s with isDrawing := true, toolPreview := none, redoStack := ([] : List Drawable) }
    match s.currentTool with
    | .pen =>
      { base with
        currentCommand := some (.penLine s.nextId [p] s.currentLineWidth (getCurrentColor s.currentSetting))
        nextId := s.nextId + 1 }
    | .stamp =>
      { base with
        currentCommand := some (.Sticker s.nextId p s.currentSticker s.currentSetting)
        nextId := s.nextId + 1 }
  | .mousemove p =>
    match s.currentCommand with
    | some c =>
      if s.isDrawing then
        { s with currentCommand := some (c.drag p) }
      else
        { s with toolPreview := some (mkPreview s p) }
    | none => { s with toolPreview := some (mkPreview s p) }
  | .mouseup => stopDrawing s
  | .mouseleave =>
    let s1 := if s.isDrawing then stopDrawing s else s
    { s1 with toolPreview := none }
  | .clearClick => { s with drawing := [], redoStack := [] }
  | .undoClick =>
    match s.drawing.getLast? with
    | none => s
    | some c => { s with drawing := s.drawing.dropLast, redoStack := s.redoStack ++ [c] }
  | .redoClick =>
    match s.redoStack.getLast? with
    | none => s
    | some c => { s with redoStack := s.redoStack.dropLast, drawing := s.drawing ++ [c] }
  | .sliderInput v => { s with currentSetting := v }
  | .selectToolEv tool lineWidth stamp =>
    { s with
      currentTool := tool
      currentLineWidth :=
        match lineWidth with
        | some w => if w ≠ 0 then w else s.currentLineWidth
        | none => s.currentLineWidth
      currentSticker :=
        match stamp with
        | some g => if g ≠ "" then g else s.currentSticker
        | none => s.currentSticker }
where
  /-- The `else` branch of the `mousemove` listener: recreate the tool
  preview at the pointer position from the current tool parameters. -/
  mkPreview (s : State) (p : Point) : Preview :=
    match s.currentTool with
    | .pen => .penPreview p s.currentLineWidth (getPreviewColor s.currentSetting)
    | .stamp => .StickerPreview p s.currentSticker s.currentSetting

/-- Folding a list of events through `step`, oldest first: the host
delivers events strictly in order and each handler runs to completion. -/
def applyEvents (s : State) (evs : List Event) : State :=
  evs.foldl step s

/-- A state is reachable when some event sequence produces it from the
initial state. -/
def Reachable (s : State) : Prop :=
  ∃ evs : List Event, applyEvents initState evs = s

/-- The primitive 2D-context operations the drawables issue, at the
granularity the claims need.  `strokePath` stands for the
beginPath/moveTo/lineTo/stroke sequence of `penLine.display` with its
style fields; `fillCircle` for `penPreview.display` (a filled arc of
radius `lineWidth / 2`); `stampText` for the save/translate/rotate/
fillText/restore sequence of `Sticker.display` and
`StickerPreview.display` (`halfAlpha` records `globalAlpha = 0.5`);
`clearRect`, `fillRect` and `scale` for the corresponding context calls. -/
inductive RenderOp where
  | clearRect (x y w h : Nat)
  | strokePath (path : List Point) (lineWidth : Nat) (color : String)
  | fillCircle (center : Point) (lineWidth : Nat) (color : String)
  | stampText (position : Point) (emoji : String) (rotation : Nat) (halfAlpha : Bool)
  | fillRect (x y w h : Nat) (color : String)
  | scale (factor : Nat)
deriving DecidableEq, Repr

/-- `display(ctx)` of the committable drawables.  `penLine.display`
destructures `[startPoint, ...restOfPath]` and returns without issuing any
operation when the path is empty or a single point; otherwise it strokes
the whole path as one connected line.  `Sticker.display` draws the glyph
at full opacity. -/
def Drawable.display : Drawable → List RenderOp
  | .penLine _ path w col =>
    match path with
    | [] => []
    | [_] => []
    | p :: q :: rest => [RenderOp.strokePath (p :: q :: rest) w col]
  | .Sticker _ pos e r => [RenderOp.stampText pos e r false]

/-- `display(ctx)` of the preview variants: `penPreview` fills a circle,
`StickerPreview` draws the glyph at `globalAlpha = 0.5`. -/
def Preview.display : Preview → List RenderOp
  | .penPreview pos w col => [RenderOp.fillCircle pos w col]
  | .StickerPreview pos e r => [RenderOp.stampText pos e r true]

/-- The operations `redraw()` emits for the in-progress command:
`if (currentCommand) currentCommand.display(ctx)`. -/
def currentOps (s : State) : List RenderOp :=
  match s.currentCommand with
  | some c => c.display
  | none => []

/-- The operations `redraw()` emits for the preview:
`if (toolPreview) toolPreview.display(ctx)`. -/
def previewOps (s : State) : List RenderOp :=
  match s.toolPreview with
  | some t => t.display
  | none => []

/-- `redraw()`: clear the whole 256×256 canvas, then display every item of
`drawing` in order, then the in-progress command if any, then the preview
if any. -/
def redraw (s : State) : List RenderOp :=
  RenderOp.clearRect 0 0 256 256 ::
    ((s.drawing.map Drawable.display).flatten ++ currentOps s ++ previewOps s)

/-- `exportDrawing()`: fill a white 1024×1024 background, scale by
`1024 / 256 = 4`, then display only the items of the `drawing` array —
not previews or in-progress commands. -/
def exportDrawing (s : State) : List RenderOp :=
  RenderOp.fillRect 0 0 1024 1024 "white" ::
    RenderOp.scale 4 ::
    (s.drawing.map Drawable.display).flatten

/-- The identity tags of every drawable currently owned by one of the
three owners: the committed list `drawing`, the `redoStack`, and the
in-progress slot `currentCommand`. -/
def idList (s : State) : List Nat :=
  (s.drawing ++ s.redoStack ++ s.currentCommand.toList).map Drawable.id

/-- The state invariant maintained by every event handler: the `isDrawing`
flag mirrors the in-progress slot, no preview coexists with an in-progress
command, the identity tags of all owned drawables are pairwise distinct,
and every tag is below the allocation counter. -/
def Inv (s : State) : Prop :=
  s.isDrawing = s.currentCommand.isSome ∧
  (s.currentCommand.isSome = true → s.toolPreview = none) ∧
  (idList s).Nodup ∧
  ∀ i ∈ idList s, i < s.nextId

/-- A committable user gesture, as a sequence of delivered events:
`stroke p q rest` selects the pen tool, presses at `p`, drags through `q`
and then `rest`, and releases (so the recorded path has at least two
points); `stamp g p` selects the stamp glyph `g`, presses at `p`, and
releases with no intervening move. -/
inductive Gesture where
  | stroke (p q : Point) (rest : List Point)
  | stamp (g : String) (p : Point)
deriving DecidableEq, Repr

/-- The event sequence one gesture delivers to the listeners. -/
def Gesture.events : Gesture → List Event
  | .stroke p q rest =>
    Event.selectToolEv .pen none none ::
      Event.mousedown p :: Event.mousemove q ::
        (rest.map Event.mousemove ++ [Event.mouseup])
  | .stamp g p =>
    Event.selectToolEv .stamp none (some g) :: Event.mousedown p :: [Event.mouseup]

/-- The concatenated event stream of a list of gestures, performed in
order. -/
def gesturesEvents : List Gesture → List Event
  | [] => []
  | g :: gs => g.events ++ gesturesEvents gs

/-- The state after performing a list of committing gestures from the
initial state. -/
def afterCommits (gs : List Gesture) : State :=
  applyEvents initState (gesturesEvents gs)

/-- The state after the gestures followed by `k` undo clicks. -/
def afterUndos (gs : List Gesture) (k : Nat) : State :=
  applyEvents (afterCommits gs) (List.replicate k Event.undoClick)

/-- The state after the gestures, `k` undo clicks, and `k` redo clicks. -/
def afterRedos (gs : List Gesture) (k : Nat) : State :=
  applyEvents (afterUndos gs k) (List.replicate k Event.redoClick)

theorem drag_id (c : Drawable) (p : Point) : (c.drag p).id = c.id := by
  cases c <;> rfl

theorem inv_initState : Inv initState := by
  refine ⟨rfl, by simp [initState], by simp [idList, initState], by simp [idList, initState]⟩

theorem inv_stopDrawing (s : State) (h : Inv s) : Inv (stopDrawing s) := by
  obtain ⟨h1, h2, h3, h4⟩ := h
  cases hcc : s.currentCommand with
  | none =>
    simp only [stopDrawing, hcc]
    exact ⟨h1, h2, h3, h4⟩
  | some c =>
    have hd : s.isDrawing = true := by rw [h1, hcc]; rfl
    simp only [idList, hcc] at h3 h4
    cases c with
    | penLine i path w col =>
      by_cases hv : (Drawable.penLine i path w col).isValid = true
      · simp only [stopDrawing, hcc, hd, if_true, hv]
        refine ⟨rfl, by simp, ?_, ?_⟩
        · simp only [idList, List.map_append, List.nodup_append, List.disjoint_append_right,
            List.disjoint_append_left, Option.toList_some, Option.toList_none,
            List.append_nil] at h3 ⊢
          simp only [List.map_cons, List.map_nil, List.nodup_cons, List.nodup_nil,
            List.disjoint_singleton, List.singleton_disjoint, List.mem_singleton,
            List.not_mem_nil] at h3 ⊢
          tauto
        · intro j hj
          apply h4 j
          simp only [idList, List.map_append, List.mem_append, Option.toList_some,
            Option.toList_none, List.append_nil, List.map_cons, List.map_nil,
            List.mem_singleton, List.mem_cons, List.not_mem_nil] at hj ⊢
          tauto
      · simp only [stopDrawing, hcc, hd, if_true, hv, if_false]
        refine ⟨rfl, by simp, ?_, ?_⟩
        · have hsub : List.Sublist (s.drawing ++ s.redoStack)
              (s.drawing ++ s.redoStack ++ (Drawable.penLine i path w col :: []).map id) := by
            exact List.sublist_append_left _ _
          · simp only [idList, Option.toList_none, List.append_nil]
            exact h3.sublist ((List.sublist_append_left _ _).map Drawable.id)
        · intro j hj
          apply h4 j
          simp only [idList, List.map_append, List.mem_append, Option.toList_some,
            Option.toList_none, List.append_nil] at hj ⊢
          tauto
    | Sticker i pos e r =>
      simp only [stopDrawing, hcc, hd, if_true]
      refine ⟨rfl, by simp, ?_, ?_⟩
      · simp only [idList, List.map_append, List.nodup_append, List.disjoint_append_right,
          List.disjoint_append_left, Option.toList_some, Option.toList_none,
          List.append_nil] at h3 ⊢
        simp only [List.map_cons, List.map_nil, List.nodup_cons, List.nodup_nil,
          List.disjoint_singleton, List.singleton_disjoint, List.mem_singleton,
          List.not_mem_nil] at h3 ⊢
        tauto
      · intro j hj
        apply h4 j
        simp only [idList, List.map_append, List.mem_append, Option.toList_some,
          Option.toList_none, List.append_nil, List.map_cons, List.map_nil,
          List.mem_singleton, List.mem_cons, List.not_mem_nil] at hj ⊢
        tauto

theorem perm_snoc_middle (c : Drawable) (a r t : List Drawable) :
    List.Perm ((a ++ (r ++ [c])) ++ t) (((a ++ [c]) ++ r) ++ t) := by
  refine List.Perm.append_right t ?_
  simpa [List.append_assoc] using (@List.perm_append_comm _ r [c]).append_left a

theorem inv_step (s : State) (e : Event) (h : Inv s) : Inv (step s e) := by
  obtain ⟨h1, h2, h3, h4⟩ := h
  have hsubd : List.Sublist s.drawing ((s.drawing ++ s.redoStack) ++ s.currentCommand.toList) :=
    (List.sublist_append_left _ _).trans (List.sublist_append_left _ _)
  have hdn : (s.drawing.map Drawable.id).Nodup := h3.sublist (hsubd.map Drawable.id)
  have hdb : ∀ i ∈ s.drawing.map Drawable.id, i < s.nextId :=
    fun i hi => h4 i ((hsubd.map Drawable.id).subset hi)
  cases e with
  | mousedown p =>
    have fresh : s.nextId ∉ s.drawing.map Drawable.id :=
      fun hmem => absurd (hdb _ hmem) (lt_irrefl _)
    cases ht : s.currentTool with
    | pen =>
      simp only [step, ht]
      refine ⟨rfl, fun _ => rfl, ?_, ?_⟩
      · simp only [idList, Option.toList_some, List.append_nil, List.map_append,
          List.map_cons, List.map_nil, List.nodup_append, List.nodup_cons, List.nodup_nil,
          List.disjoint_singleton, Drawable.id]
        exact ⟨hdn, by simp, fun hmem => fresh (by simpa using hmem)⟩
      · intro i hi
        simp only [idList, Option.toList_some, List.append_nil, List.map_append,
          List.map_cons, List.map_nil, List.mem_append, List.mem_singleton,
          Drawable.id] at hi
        rcases hi with hi | rfl
        · exact lt_trans (hdb i hi) (Nat.lt_succ_self _)
        · exact Nat.lt_succ_self _
    | stamp =>
      simp only [step, ht]
      refine ⟨rfl, fun _ => rfl, ?_, ?_⟩
      · simp only [idList, Option.toList_some, List.append_nil, List.map_append,
          List.map_cons, List.map_nil, List.nodup_append, List.nodup_cons, List.nodup_nil,
          List.disjoint_singleton, Drawable.id]
        exact ⟨hdn, by simp, fun hmem => fresh (by simpa using hmem)⟩
      · intro i hi
        simp only [idList, Option.toList_some, List.append_nil, List.map_append,
          List.map_cons, List.map_nil, List.mem_append, List.mem_singleton,
          Drawable.id] at hi
        rcases hi with hi | rfl
        · exact lt_trans (hdb i hi) (Nat.lt_succ_self _)
        · exact Nat.lt_succ_self _
  | mousemove p =>
    cases hcc : s.currentCommand with
    | some c =>
      have hd : s.isDrawing = true := by rw [h1, hcc]; rfl
      simp only [step, hcc, hd, if_true]
      refine ⟨rfl, fun _ => h2 (by rw [hcc]; rfl), ?_, ?_⟩
      · simp only [idList, hcc, Option.toList_some, List.map_append, List.map_cons,
          List.map_nil, drag_id] at h3 ⊢
        exact h3
      · simp only [idList, hcc, Option.toList_some, List.map_append, List.map_cons,
          List.map_nil, drag_id] at h4 ⊢
        exact h4
    | none =>
      simp only [step, hcc]
      refine ⟨by rw [hcc] at h1; exact h1, by simp, ?_, ?_⟩
      · simp only [idList, hcc, Option.toList_none, List.append_nil] at h3 ⊢
        exact h3
      · simp only [idList, hcc, Option.toList_none, List.append_nil] at h4 ⊢
        exact h4
  | mouseup => exact inv_stopDrawing s ⟨h1, h2, h3, h4⟩
  | mouseleave =>
    by_cases hd : s.isDrawing = true
    · have h' := inv_stopDrawing s ⟨h1, h2, h3, h4⟩
      simp only [step, hd, if_true]
      exact ⟨h'.1, fun _ => rfl, h'.2.2.1, h'.2.2.2⟩
    · simp only [step, hd, if_false]
      exact ⟨h1, fun _ => rfl, h3, h4⟩
  | clearClick =>
    have hsubc : List.Sublist s.currentCommand.toList
        ((s.drawing ++ s.redoStack) ++ s.currentCommand.toList) :=
      List.sublist_append_right _ _
    refine ⟨h1, h2, ?_, ?_⟩
    · simp only [step, idList, List.nil_append]
      exact h3.sublist (hsubc.map Drawable.id)
    · intro i hi
      simp only [step, idList, List.nil_append] at hi
      exact h4 i ((hsubc.map Drawable.id).subset hi)
  | undoClick =>
    cases hl : s.drawing.getLast? with
    | none =>
      simp only [step, hl]
      exact ⟨h1, h2, h3, h4⟩
    | some c =>
      have hne : s.drawing ≠ [] := by
        intro h0
        rw [h0] at hl
        simp at hl
      have hde : s.drawing = s.drawing.dropLast ++ [c] := by
        conv_lhs => rw [← List.dropLast_append_getLast hne]
        have hgl : s.drawing.getLast hne = c := by
          have := List.getLast?_eq_getLast s.drawing hne
          rw [hl] at this
          exact (Option.some_inj.mp this).symm
        rw [hgl]
      have hperm : List.Perm
          ((s.drawing.dropLast ++ (s.redoStack ++ [c])) ++ s.currentCommand.toList)
          ((s.drawing ++ s.redoStack) ++ s.currentCommand.toList) := by
        conv_rhs => rw [hde]
        simpa [List.append_assoc] using
          perm_snoc_middle c s.drawing.dropLast s.redoStack s.currentCommand.toList
      simp only [step, hl]
      refine ⟨h1, h2, ?_, ?_⟩
      · simp only [idList]
        exact (hperm.map Drawable.id).symm.nodup h3
      · intro i hi
        simp only [idList] at hi
        exact h4 i ((hperm.map Drawable.id).subset hi)
  | redoClick =>
    cases hl : s.redoStack.getLast? with
    | none =>
      simp only [step, hl]
      exact ⟨h1, h2, h3, h4⟩
    | some c =>
      have hne : s.redoStack ≠ [] := by
        intro h0
        rw [h0] at hl
        simp at hl
      have hde : s.redoStack = s.redoStack.dropLast ++ [c] := by
        conv_lhs => rw [← List.dropLast_append_getLast hne]
        have hgl : s.redoStack.getLast hne = c := by
          have := List.getLast?_eq_getLast s.redoStack hne
          rw [hl] at this
          exact (Option.some_inj.mp this).symm
        rw [hgl]
      have hperm : List.Perm
          (((s.drawing ++ [c]) ++ s.redoStack.dropLast) ++ s.currentCommand.toList)
          ((s.drawing ++ s.redoStack) ++ s.currentCommand.toList) := by
        conv_rhs => rw [hde]
        exact (perm_snoc_middle c s.drawing s.redoStack.dropLast s.currentCommand.toList).symm
      simp only [step, hl]
      refine ⟨h1, h2, ?_, ?_⟩
      · simp only [idList]
        exact (hperm.map Drawable.id).symm.nodup h3
      · intro i hi
        simp only [idList] at hi
        exact h4 i ((hperm.map Drawable.id).subset hi)
  | sliderInput v => exact ⟨h1, h2, h3, h4⟩
  | selectToolEv tool lineWidth stamp => exact ⟨h1, h2, h3, h4⟩

theorem inv_applyEvents (evs : List Event) (s : State) (h : Inv s) :
    Inv (applyEvents s evs) := by
  induction evs generalizing s with
  | nil => exact h
  | cons e evs ih => exact ih (step s e) (inv_step s e h)

theorem reachable_inv (s : State) (h : Reachable s) : Inv s := by
  obtain ⟨evs, hevs⟩ := h
  exact hevs ▸ inv_applyEvents evs initState inv_initState

theorem applyEvents_append (s : State) (a b : List Event) :
    applyEvents s (a ++ b) = applyEvents (applyEvents s a) b := by
  simp [applyEvents, List.foldl_append]

theorem applyEvents_moves (rest : List Point) (s : State) (i : Nat) (path : List Point)
    (w : Nat) (col : String) (hd : s.isDrawing = true)
    (hcc : s.currentCommand = some (.penLine i path w col)) :
    applyEvents s (rest.map Event.mousemove) =
      { s with currentCommand := some (.penLine i (path ++ rest) w col) } := by
  induction rest generalizing s path with
  | nil =>
    simp only [List.map_nil, applyEvents, List.foldl_nil, List.append_nil, ← hcc]
  | cons r rs ih =>
    have hstep : step s (Event.mousemove r) =
        { s with currentCommand := some (.penLine i (path ++ [r]) w col) } := by
      simp [step, hcc, hd, Drawable.drag]
    have hfold : applyEvents s ((r :: rs).map Event.mousemove) =
        applyEvents (step s (Event.mousemove r)) (rs.map Event.mousemove) := rfl
    rw [hfold, hstep,
      ih { s with currentCommand := some (.penLine i (path ++ [r]) w col) } (path ++ [r]) hd rfl]
    simp [List.append_assoc]

theorem gesture_commits (g : Gesture) (s : State) :
    ∃ d : Drawable,
      (applyEvents s g.events).drawing = s.drawing ++ [d] ∧
      (applyEvents s g.events).redoStack = [] := by
  cases g with
  | stamp g p =>
    refine ⟨.Sticker s.nextId p
      (match some g with
       | some g => if g ≠ "" then g else s.currentSticker
       | none => s.currentSticker) s.currentSetting, ?_, ?_⟩ <;>
      simp [Gesture.events, applyEvents, step, stopDrawing]
  | stroke p q rest =>
    refine ⟨.penLine s.nextId (p :: q :: rest) s.currentLineWidth
      (getCurrentColor s.currentSetting), ?_⟩
    have h3 : applyEvents s (Gesture.events (.stroke p q rest)) =
        applyEvents
          (applyEvents
            { s with
              currentTool := .pen
              isDrawing := true
              toolPreview := none
              redoStack := []
              currentCommand := some (.penLine s.nextId [p, q] s.currentLineWidth
                (getCurrentColor s.currentSetting))
              nextId := s.nextId + 1 }
            (rest.map Event.mousemove)) [Event.mouseup] := by
      rw [Gesture.events]
      have : Event.selectToolEv .pen none none ::
          Event.mousedown p :: Event.mousemove q ::
            (rest.map Event.mousemove ++ [Event.mouseup]) =
          [Event.selectToolEv .pen none none, Event.mousedown p, Event.mousemove q] ++
            (rest.map Event.mousemove ++ [Event.mouseup]) := rfl
      have h2 : applyEvents s
          [Event.selectToolEv .pen none none, Event.mousedown p, Event.mousemove q] =
          { s with
            currentTool := .pen
            isDrawing := true
            toolPreview := none
            redoStack := []
            currentCommand := some (.penLine s.nextId [p, q] s.currentLineWidth
              (getCurrentColor s.currentSetting))
            nextId := s.nextId + 1 } := by
        simp [applyEvents, step, Drawable.drag]
      rw [this, applyEvents_append, applyEvents_append, h2]
    rw [h3, applyEvents_moves rest _ s.nextId [p, q] s.currentLineWidth
      (getCurrentColor s.currentSetting) rfl rfl]
    have hvalid : (Drawable.penLine s.nextId (p :: q :: rest) s.currentLineWidth
        (getCurrentColor s.currentSetting)).isValid = true := by
      simp [Drawable.isValid]
    refine ⟨?_, ?_⟩ <;>
      simp [applyEvents, step, stopDrawing, hvalid]

theorem gestures_commit (gs : List Gesture) (s : State)
    (hrs : s.redoStack = []) :
    ∃ ds : List Drawable, ds.length = gs.length ∧
      (applyEvents s (gesturesEvents gs)).drawing = s.drawing ++ ds ∧
      (applyEvents s (gesturesEvents gs)).redoStack = [] := by
  induction gs generalizing s with
  | nil =>
    exact ⟨[], rfl, by simp [gesturesEvents, applyEvents],
      by simpa [gesturesEvents, applyEvents] using hrs⟩
  | cons g gs ih =>
    obtain ⟨d, hd1, hd2⟩ := gesture_commits g s
    obtain ⟨ds, hl, h1, h2⟩ := ih (applyEvents s g.events) hd2
    rw [gesturesEvents, applyEvents_append]
    exact ⟨d :: ds, by simp [hl], by rw [h1, hd1]; simp, h2⟩

theorem applyEvents_undo (rb a : List Drawable) (s : State)
    (hd : s.drawing = a ++ rb.reverse) :
    applyEvents s (List.replicate rb.length Event.undoClick) =
      { s with drawing := a, redoStack := s.redoStack ++ rb } := by
  induction rb generalizing s with
  | nil =>
    rw [List.reverse_nil, List.append_nil] at hd
    simp only [List.length_nil, List.replicate_zero, applyEvents, List.foldl_nil,
      List.append_nil, ← hd]
  | cons x rb ih =>
    have hd' : s.drawing = (a ++ rb.reverse) ++ [x] := by
      rw [hd, List.reverse_cons, ← List.append_assoc]
    have hgl : s.drawing.getLast? = some x := by
      rw [hd']
      exact List.getLast?_concat _
    have hstep : step s Event.undoClick =
        { s with drawing := a ++ rb.reverse, redoStack := s.redoStack ++ [x] } := by
      simp only [step, hd', List.getLast?_concat, List.dropLast_concat]
    have hfold : applyEvents s (List.replicate (x :: rb).length Event.undoClick) =
        applyEvents (step s Event.undoClick) (List.replicate rb.length Event.undoClick) := rfl
    rw [hfold, hstep,
      ih { s with drawing := a ++ rb.reverse, redoStack := s.redoStack ++ [x] } rfl]
    simp [List.append_assoc]

theorem applyEvents_redo (c r : List Drawable) (s : State)
    (hr : s.redoStack = r ++ c.reverse) :
    applyEvents s (List.replicate c.length Event.redoClick) =
      { s with drawing := s.drawing ++ c, redoStack := r } := by
  induction c generalizing s with
  | nil =>
    rw [List.reverse_nil, List.append_nil] at hr
    simp only [List.length_nil, List.replicate_zero, applyEvents, List.foldl_nil,
      List.append_nil, ← hr]
  | cons x c ih =>
    have hr' : s.redoStack = (r ++ c.reverse) ++ [x] := by
      rw [hr, List.reverse_cons, ← List.append_assoc]
    have hgl : s.redoStack.getLast? = some x := by
      rw [hr']
      exact List.getLast?_concat _
    have hstep : step s Event.redoClick =
        { s with redoStack := r ++ c.reverse, drawing := s.drawing ++ [x] } := by
      simp only [step, hr', List.getLast?_concat, List.dropLast_concat]
    have hfold : applyEvents s (List.replicate (x :: c).length Event.redoClick) =
        applyEvents (step s Event.redoClick) (List.replicate c.length Event.redoClick) := rfl
    rw [hfold, hstep,
      ih { s with redoStack := r ++ c.reverse, drawing := s.drawing ++ [x] } rfl]
    simp [List.append_assoc]

/-- Claim C2: a pointer-down event — the start of any new action, stroke or
stamp — leaves the redo stack empty in every state, so redo is unavailable
after any new input that follows an undo. -/
theorem mousedown_clears_redoStack (s : State) (p : Point) :
    (step s (.mousedown p)).redoStack = [] := by
  cases ht : s.currentTool <;> simp [step, ht]

/-- Claim C8: undo on an empty committed list is a complete no-op on the state,
otherwise it pops the last committed item onto the redo stack; redo on an
empty redo stack is a complete no-op, otherwise it pops the last redo item
onto the committed list.  Both handlers are total functions of the state
(the model has no failure case), so neither ever throws. -/
theorem undo_redo_pop_push (s : State) :
    (s.drawing = [] → step s .undoClick = s) ∧
    (∀ l x, s.drawing = l ++ [x] →
      (step s .undoClick).drawing = l ∧
      (step s .undoClick).redoStack = s.redoStack ++ [x]) ∧
    (s.redoStack = [] → step s .redoClick = s) ∧
    (∀ l x, s.redoStack = l ++ [x] →
      (step s .redoClick).redoStack = l ∧
      (step s .redoClick).drawing = s.drawing ++ [x]) := by
  refine ⟨?_, ?_, ?_, ?_⟩
  · intro h
    simp [step, h]
  · intro l x h
    have hgl : s.drawing.getLast? = some x := by
      rw [h]
      exact List.getLast?_concat _
    constructor <;> simp [step, hgl, h, List.dropLast_concat]
  · intro h
    simp [step, h]
  · intro l x h
    have hgl : s.redoStack.getLast? = some x := by
      rw [h]
      exact List.getLast?_concat _
    constructor <;> simp [step, hgl, h, List.dropLast_concat]

/-- Witness for C8 at concrete states: a two-element committed list pops
its last element onto the redo stack, and undo/redo on the initial (empty)
state are no-ops. -/
theorem undo_redo_pop_push_witness :
    (step { initState with drawing := [Drawable.Sticker 0 ⟨1, 2⟩ "⭐" 0,
        Drawable.Sticker 1 ⟨3, 4⟩ "💖" 90] } Event.undoClick).drawing =
      [Drawable.Sticker 0 ⟨1, 2⟩ "⭐" 0] ∧
    (step { initState with drawing := [Drawable.Sticker 0 ⟨1, 2⟩ "⭐" 0,
        Drawable.Sticker 1 ⟨3, 4⟩ "💖" 90] } Event.undoClick).redoStack =
      [Drawable.Sticker 1 ⟨3, 4⟩ "💖" 90] ∧
    step initState Event.undoClick = initState ∧
    step initState Event.redoClick = initState := by
  have h := undo_redo_pop_push { initState with drawing := [Drawable.Sticker 0 ⟨1, 2⟩ "⭐" 0,
    Drawable.Sticker 1 ⟨3, 4⟩ "💖" 90] }
  have h0 := undo_redo_pop_push initState
  obtain ⟨hp1, hp2⟩ := h.2.1 [Drawable.Sticker 0 ⟨1, 2⟩ "⭐" 0]
    (Drawable.Sticker 1 ⟨3, 4⟩ "💖" 90) rfl
  exact ⟨hp1, by simpa [initState] using hp2, h0.1 rfl, h0.2.2.1 rfl⟩

/-- Claim C9: tool selection and slider updates never alter any committed
drawable or the redo stack — both lists are unchanged, element for
element — while a command created by a pointer-down afterwards carries the
updated hue/rotation parameter. -/
theorem tool_updates_preserve_committed (s : State) (tool : Tool)
    (lineWidth : Option Nat) (stamp : Option String) (v : Nat) (p : Point) :
    (step s (.selectToolEv tool lineWidth stamp)).drawing = s.drawing ∧
    (step s (.selectToolEv tool lineWidth stamp)).redoStack = s.redoStack ∧
    (step s (.sliderInput v)).drawing = s.drawing ∧
    (step s (.sliderInput v)).redoStack = s.redoStack ∧
    (step (step { s with currentTool := Tool.pen } (Event.sliderInput v))
        (Event.mousedown p)).currentCommand =
      some (.penLine s.nextId [p] s.currentLineWidth (getCurrentColor v)) ∧
    (step (step { s with currentTool := Tool.stamp } (Event.sliderInput v))
        (Event.mousedown p)).currentCommand =
      some (.Sticker s.nextId p s.currentSticker v) :=
  ⟨rfl, rfl, rfl, rfl, rfl, rfl⟩

/-- Claim C4: with the stamp tool selected, pointer-down at `p` followed
immediately by pointer-up — no intervening move — commits exactly one
stamp at `p` carrying the currently selected glyph and rotation:
stamps commit unconditionally even with zero drag, unlike strokes. -/
theorem stamp_commits_without_drag (s : State) (p : Point)
    (ht : s.currentTool = .stamp) :
    (step (step s (.mousedown p)) .mouseup).drawing =
      s.drawing ++ [.Sticker s.nextId p s.currentSticker s.currentSetting] := by
  simp [step, ht, stopDrawing]

/-- Witness for C4: the §8 scenario — select stamp "⭐", press at (50,50),
release immediately; exactly one ⭐ stamp at (50,50) is committed. -/
theorem stamp_commits_without_drag_witness :
    (step (step (step initState (Event.selectToolEv .stamp none (some "⭐")))
        (Event.mousedown ⟨50, 50⟩)) Event.mouseup).drawing =
      [Drawable.Sticker 0 ⟨50, 50⟩ "⭐" 0] := by
  have h := stamp_commits_without_drag
    (step initState (Event.selectToolEv .stamp none (some "⭐"))) ⟨50, 50⟩ rfl
  rw [h]
  rfl

/-- Claim C3: a stroke is committable exactly when its recorded path has at
least two points, and that test is the sole gate on stroke commit: ending
the action (mouseup or mouseleave) with a one-point in-progress stroke
discards it, and with a ≥2-point stroke commits it. -/
theorem stroke_commit_gate (s : State) (i : Nat) (path : List Point) (w : Nat)
    (col : String) (hd : s.isDrawing = true)
    (hcc : s.currentCommand = some (.penLine i path w col)) :
    ((Drawable.penLine i path w col).isValid = true ↔ 2 ≤ path.length) ∧
    (step s .mouseup).drawing =
      (if 2 ≤ path.length then s.drawing ++ [.penLine i path w col] else s.drawing) ∧
    (step s .mouseleave).drawing =
      (if 2 ≤ path.length then s.drawing ++ [.penLine i path w col] else s.drawing) := by
  refine ⟨by simp [Drawable.isValid]; omega, ?_, ?_⟩ <;>
  · by_cases h2 : 2 ≤ path.length
    · have hvt : (Drawable.penLine i path w col).isValid = true := by
        simp [Drawable.isValid]
        omega
      simp [step, stopDrawing, hcc, hd, hvt, h2]
    · have hvf : (Drawable.penLine i path w col).isValid = false := by
        simp [Drawable.isValid]
        omega
      simp [step, stopDrawing, hcc, hd, hvf, h2]

/-- Witness for C3 at a concrete state: a one-point in-progress stroke is
discarded by mouseup and mouseleave, and its committability test is
false. -/
theorem stroke_commit_gate_witness :
    (((Drawable.penLine 0 [⟨1, 1⟩] 2 "c").isValid = true ↔
        2 ≤ [(⟨1, 1⟩ : Point)].length) ∧
      (step { initState with
          isDrawing := true
          currentCommand := some (.penLine 0 [⟨1, 1⟩] 2 "c") } .mouseup).drawing =
        (if 2 ≤ [(⟨1, 1⟩ : Point)].length then
          initState.drawing ++ [Drawable.penLine 0 [⟨1, 1⟩] 2 "c"] else initState.drawing) ∧
      (step { initState with
          isDrawing := true
          currentCommand := some (.penLine 0 [⟨1, 1⟩] 2 "c") } .mouseleave).drawing =
        (if 2 ≤ [(⟨1, 1⟩ : Point)].length then
          initState.drawing ++ [Drawable.penLine 0 [⟨1, 1⟩] 2 "c"] else initState.drawing)) :=
  stroke_commit_gate { initState with
    isDrawing := true
    currentCommand := some (.penLine 0 [⟨1, 1⟩] 2 "c") } 0 [⟨1, 1⟩] 2 "c" rfl rfl

/-- Claim C7: export renders exactly the committed drawables, scaled ×4, onto an
opaque white background, in all states; it is independent of the
in-progress command and the preview, and in particular starting a stroke
(pointer-down plus a move) changes nothing about the export. -/
theorem export_renders_only_committed (s : State) (c : Option Drawable)
    (t : Option Preview) (p q : Point) :
    exportDrawing s =
      RenderOp.fillRect 0 0 1024 1024 "white" :: RenderOp.scale 4 ::
        (s.drawing.map Drawable.display).flatten ∧
    exportDrawing { s with currentCommand := c, toolPreview := t } = exportDrawing s ∧
    exportDrawing (step (step s (.mousedown p)) (.mousemove q)) = exportDrawing s := by
  refine ⟨rfl, rfl, ?_⟩
  cases ht : s.currentTool <;> simp [step, ht, exportDrawing, Drawable.drag]

/-- Claim C5: every redraw first clears the whole 256×256 surface, then renders
the committed drawables oldest to newest, then the in-progress command if
one exists, then the preview if one exists; and in every reachable state
in which a command is in progress the preview slot is empty, so no
preview is rendered. -/
theorem redraw_order_and_no_preview (s : State) (h : Reachable s) :
    redraw s =
      RenderOp.clearRect 0 0 256 256 ::
        ((s.drawing.map Drawable.display).flatten ++ currentOps s ++ previewOps s) ∧
    (s.currentCommand.isSome = true → previewOps s = []) := by
  refine ⟨rfl, fun hsome => ?_⟩
  have h2 := (reachable_inv s h).2.1 hsome
  simp [previewOps, h2]

/-- Witness for C5 at a concrete reachable state with a command in
progress: the redraw equation holds and no preview operation is
emitted. -/
theorem redraw_order_and_no_preview_witness :
    (redraw (step initState (Event.mousedown ⟨0, 0⟩)) =
      RenderOp.clearRect 0 0 256 256 ::
        (((step initState (Event.mousedown ⟨0, 0⟩)).drawing.map Drawable.display).flatten ++
          currentOps (step initState (Event.mousedown ⟨0, 0⟩)) ++
          previewOps (step initState (Event.mousedown ⟨0, 0⟩)))) ∧
    previewOps (step initState (Event.mousedown ⟨0, 0⟩)) = [] :=
  have h := redraw_order_and_no_preview (step initState (Event.mousedown ⟨0, 0⟩))
    ⟨[Event.mousedown ⟨0, 0⟩], rfl⟩
  ⟨h.1, h.2 rfl⟩

/-- Claim C10: in every reachable state the drawing flag is set exactly when the
in-progress slot holds a command. -/
theorem isDrawing_iff_currentCommand (s : State) (h : Reachable s) :
    s.isDrawing = true ↔ s.currentCommand.isSome = true := by
  rw [(reachable_inv s h).1]

/-- Witness for C10 at a concrete reachable state (after one
pointer-down). -/
theorem isDrawing_iff_currentCommand_witness :
    (step initState (Event.mousedown ⟨0, 0⟩)).isDrawing = true ↔
      (step initState (Event.mousedown ⟨0, 0⟩)).currentCommand.isSome = true :=
  isDrawing_iff_currentCommand (step initState (Event.mousedown ⟨0, 0⟩))
    ⟨[Event.mousedown ⟨0, 0⟩], rfl⟩

/-- Claim C6: in every reachable state each drawable is owned by at most one of
the committed list, the redo stack and the in-progress slot — their
identity tags are pairwise distinct — and undo, redo and commit move whole
objects between the owners as transfers: undo and redo permute the
combined committed-plus-redo collection without change, and ending an
action either transfers the whole in-progress object to the committed
list or discards it, never copying it. -/
theorem ownership_disjoint_and_transfers (s : State) (h : Reachable s) :
    (idList s).Nodup ∧
    List.Perm ((step s .undoClick).drawing ++ (step s .undoClick).redoStack)
      (s.drawing ++ s.redoStack) ∧
    List.Perm ((step s .redoClick).drawing ++ (step s .redoClick).redoStack)
      (s.drawing ++ s.redoStack) ∧
    (∀ c, s.currentCommand = some c → s.isDrawing = true →
      (step s .mouseup).currentCommand = none ∧
      ((step s .mouseup).drawing = s.drawing ++ [c] ∨
        (step s .mouseup).drawing = s.drawing)) := by
  refine ⟨(reachable_inv s h).2.2.1, ?_, ?_, ?_⟩
  · cases hl : s.drawing.getLast? with
    | none => simp [step, hl]
    | some c =>
      have hne : s.drawing ≠ [] := by
        intro h0
        rw [h0] at hl
        simp at hl
      have hde : s.drawing = s.drawing.dropLast ++ [c] := by
        conv_lhs => rw [← List.dropLast_append_getLast hne]
        have hgl : s.drawing.getLast hne = c := by
          have := List.getLast?_eq_getLast s.drawing hne
          rw [hl] at this
          exact (Option.some_inj.mp this).symm
        rw [hgl]
      simp only [step, hl]
      conv_rhs => rw [hde]
      simpa using perm_snoc_middle c s.drawing.dropLast s.redoStack []
  · cases hl : s.redoStack.getLast? with
    | none => simp [step, hl]
    | some c =>
      have hne : s.redoStack ≠ [] := by
        intro h0
        rw [h0] at hl
        simp at hl
      have hde : s.redoStack = s.redoStack.dropLast ++ [c] := by
        conv_lhs => rw [← List.dropLast_append_getLast hne]
        have hgl : s.redoStack.getLast hne = c := by
          have := List.getLast?_eq_getLast s.redoStack hne
          rw [hl] at this
          exact (Option.some_inj.mp this).symm
        rw [hgl]
      simp only [step, hl]
      conv_rhs => rw [hde]
      simpa using (perm_snoc_middle c s.drawing s.redoStack.dropLast []).symm
  · intro c hcc hd
    cases c with
    | penLine i path w col =>
      by_cases hv : (Drawable.penLine i path w col).isValid = true
      · exact ⟨by simp [step, stopDrawing, hcc, hd, hv],
          Or.inl (by simp [step, stopDrawing, hcc, hd, hv])⟩
      · have hvf : (Drawable.penLine i path w col).isValid = false :=
          Bool.eq_false_iff.mpr hv
        exact ⟨by simp [step, stopDrawing, hcc, hd, hvf],
          Or.inr (by simp [step, stopDrawing, hcc, hd, hvf])⟩
    | Sticker i pos e r =>
      exact ⟨by simp [step, stopDrawing, hcc, hd],
        Or.inl (by simp [step, stopDrawing, hcc, hd])⟩

/-- Witness for C6 at a concrete reachable state (after one pointer-down,
so the in-progress slot is occupied and the commit conjunct is exercised
at the concrete in-progress stroke). -/
theorem ownership_disjoint_and_transfers_witness :
    (idList (step initState (Event.mousedown ⟨0, 0⟩))).Nodup ∧
    List.Perm
      ((step (step initState (Event.mousedown ⟨0, 0⟩)) .undoClick).drawing ++
        (step (step initState (Event.mousedown ⟨0, 0⟩)) .undoClick).redoStack)
      ((step initState (Event.mousedown ⟨0, 0⟩)).drawing ++
        (step initState (Event.mousedown ⟨0, 0⟩)).redoStack) ∧
    List.Perm
      ((step (step initState (Event.mousedown ⟨0, 0⟩)) .redoClick).drawing ++
        (step (step initState (Event.mousedown ⟨0, 0⟩)) .redoClick).redoStack)
      ((step initState (Event.mousedown ⟨0, 0⟩)).drawing ++
        (step initState (Event.mousedown ⟨0, 0⟩)).redoStack) ∧
    (step (step initState (Event.mousedown ⟨0, 0⟩)) .mouseup).currentCommand = none ∧
    ((step (step initState (Event.mousedown ⟨0, 0⟩)) .mouseup).drawing =
        (step initState (Event.mousedown ⟨0, 0⟩)).drawing ++
          [Drawable.penLine 0 [⟨0, 0⟩] 2 (getCurrentColor 0)] ∨
      (step (step initState (Event.mousedown ⟨0, 0⟩)) .mouseup).drawing =
        (step initState (Event.mousedown ⟨0, 0⟩)).drawing) :=
  have h := ownership_disjoint_and_transfers (step initState (Event.mousedown ⟨0, 0⟩))
    ⟨[Event.mousedown ⟨0, 0⟩], rfl⟩
  have hc := h.2.2.2 (Drawable.penLine 0 [⟨0, 0⟩] 2 (getCurrentColor 0)) rfl rfl
  ⟨h.1, h.2.1, h.2.2.1, hc.1, hc.2⟩

/-- Claim C1: for every sequence of N committing gestures from the initial
state followed by K ≤ N undo clicks, the committed list has length N − K
and the redo stack holds K items, and K further redo clicks restore
exactly the original committed sequence — the same drawables (identity
tags included) in the same order — leaving the redo stack empty. -/
theorem commits_undo_redo_roundtrip (gs : List Gesture) (K : Nat)
    (hK : K ≤ gs.length) :
    (afterCommits gs).drawing.length = gs.length ∧
    (afterCommits gs).redoStack = [] ∧
    (afterUndos gs K).drawing.length = gs.length - K ∧
    (afterUndos gs K).redoStack.length = K ∧
    (afterRedos gs K).drawing = (afterCommits gs).drawing ∧
    (afterRedos gs K).redoStack = [] := by
  obtain ⟨ds, hl, h1, h2⟩ := gestures_commit gs initState rfl
  have hd1 : (afterCommits gs).drawing = ds := by
    simp only [afterCommits]
    rw [h1]
    simp [initState]
  have hr1 : (afterCommits gs).redoStack = [] := h2
  have hds : ds = ds.take (gs.length - K) ++ ds.drop (gs.length - K) :=
    (List.take_append_drop _ _).symm
  have hlenb : (ds.drop (gs.length - K)).length = K := by
    rw [List.length_drop, hl]
    omega
  have hu := applyEvents_undo (ds.drop (gs.length - K)).reverse
    (ds.take (gs.length - K)) (afterCommits gs)
    (by rw [hd1, List.reverse_reverse]; exact hds)
  rw [List.length_reverse, hlenb] at hu
  have hu' : afterUndos gs K =
      { afterCommits gs with
        drawing := ds.take (gs.length - K)
        redoStack := (ds.drop (gs.length - K)).reverse } := by
    rw [afterUndos, hu, hr1]
    simp
  have hr := applyEvents_redo (ds.drop (gs.length - K)) [] (afterUndos gs K)
    (by rw [hu']; simp)
  rw [hlenb] at hr
  refine ⟨by rw [hd1, hl], hr1, ?_, ?_, ?_, ?_⟩
  · rw [hu']
    simp only [List.length_take, hl]
    omega
  · rw [hu']
    simp [hlenb]
  · rw [afterRedos, hr, hu', hd1]
    simp [List.take_append_drop]
  · rw [afterRedos, hr]

/-- Witness for C1: two gestures (one ⭐ stamp, one two-point stroke)
followed by one undo and one redo. -/
theorem commits_undo_redo_roundtrip_witness :
    (afterCommits [Gesture.stamp "⭐" ⟨50, 50⟩,
      Gesture.stroke ⟨0, 0⟩ ⟨1, 1⟩ []]).drawing.length = 2 ∧
    (afterCommits [Gesture.stamp "⭐" ⟨50, 50⟩,
      Gesture.stroke ⟨0, 0⟩ ⟨1, 1⟩ []]).redoStack = [] ∧
    (afterUndos [Gesture.stamp "⭐" ⟨50, 50⟩,
      Gesture.stroke ⟨0, 0⟩ ⟨1, 1⟩ []] 1).drawing.length = 1 ∧
    (afterUndos [Gesture.stamp "⭐" ⟨50, 50⟩,
      Gesture.stroke ⟨0, 0⟩ ⟨1, 1⟩ []] 1).redoStack.length = 1 ∧
    (afterRedos [Gesture.stamp "⭐" ⟨50, 50⟩,
      Gesture.stroke ⟨0, 0⟩ ⟨1, 1⟩ []] 1).drawing =
      (afterCommits [Gesture.stamp "⭐" ⟨50, 50⟩,
        Gesture.stroke ⟨0, 0⟩ ⟨1, 1⟩ []]).drawing ∧
    (afterRedos [Gesture.stamp "⭐" ⟨50, 50⟩,
      Gesture.stroke ⟨0, 0⟩ ⟨1, 1⟩ []] 1).redoStack = [] :=
  commits_undo_redo_roundtrip
    [Gesture.stamp "⭐" ⟨50, 50⟩, Gesture.stroke ⟨0, 0⟩ ⟨1, 1⟩ []] 1 (by decide)

end Sketchpad
